import Mathlib

/-!
Verification of the version-parsing utilities in
`src/misc/python/materialize/util.py`.

Python strings are modelled as `List Char`.  Python exceptions are modelled by
the `PyError` type below; the two `ValueError` families that the spec names
`FormatError` and `NotFoundError` are kept apart from `IndexError`, which is a
different exception class in Python (in particular it is *not* caught by the
`except ValueError` clause of `try_parse_mz`).
-/

set_option maxRecDepth 4096

namespace Mz

deriving instance DecidableEq for Except

/-- Errors raised by the modelled code.  `formatError` and `notFoundError` are
both Python `ValueError`s (the spec calls them `FormatError` and
`NotFoundError`); `indexError` is Python's `IndexError`, raised by indexing
into an empty string. -/
inductive PyError where
  | formatError
  | notFoundError
  | indexError
deriving DecidableEq, Repr

/-- Model of Python's `s.split(sep)` for a single-character separator: splits
on every occurrence, keeping empty pieces. -/
def pySplit (sep : Char) : List Char → List (List Char)
  | [] => [[]]
  | c :: rest =>
    match pySplit sep rest with
    | [] => [[]]
    | p :: ps => if c = sep then [] :: p :: ps else (c :: p) :: ps

/-- Split a string at the first occurrence of `sep`, if any. -/
def splitFirst (sep : Char) : List Char → Option (List Char × List Char)
  | [] => none
  | c :: rest =>
    if c = sep then some ([], rest)
    else
      match splitFirst sep rest with
      | some (a, b) => some (c :: a, b)
      | none => none

/-- The decimal digit character for `d < 10` (garbage above). -/
def digitChar : Nat → Char
  | 0 => '0'
  | 1 => '1'
  | 2 => '2'
  | 3 => '3'
  | 4 => '4'
  | 5 => '5'
  | 6 => '6'
  | 7 => '7'
  | 8 => '8'
  | _ => '9'

/-- Fuel-indexed decimal rendering of a natural number (the fuel makes the
definition structural, so that the kernel can evaluate it). -/
def renderNatAux : Nat → Nat → List Char
  | 0, _ => []
  | fuel + 1, n =>
    if n < 10 then [digitChar n]
    else renderNatAux fuel (n / 10) ++ [digitChar (n % 10)]

/-- Model of Python's decimal formatting of a non-negative `int` (as used by
the f-string in `create_mz`). -/
def renderNat (n : Nat) : List Char :=
  renderNatAux (n + 1) n

/-- Numeric value of a string of decimal digits. -/
def parseNat (s : List Char) : Nat :=
  s.foldl (fun acc c => 10 * acc + (c.toNat - '0'.toNat)) 0

/-- A valid numeric component of a semantic version: a nonempty digit string
with no leading zero (`"0"` itself is allowed). -/
def validNumeral (s : List Char) : Bool :=
  !s.isEmpty && s.all Char.isDigit && (s.head? != some '0' || s.length == 1)

/-- Characters allowed inside prerelease/build identifiers. -/
def isIdentChar (c : Char) : Bool :=
  c.isAlphanum || c = '-'

/-- A valid build-metadata identifier: nonempty, alphanumeric or hyphen. -/
def validBuildIdent (s : List Char) : Bool :=
  !s.isEmpty && s.all isIdentChar

/-- A valid prerelease identifier: like a build identifier, but purely numeric
identifiers must not have leading zeros. -/
def validPreIdent (s : List Char) : Bool :=
  validBuildIdent s && (!s.all Char.isDigit || validNumeral s)

/-- A valid prerelease field: dot-separated prerelease identifiers. -/
def validPre (s : List Char) : Bool :=
  (pySplit '.' s).all validPreIdent

/-- A valid build-metadata field: dot-separated build identifiers. -/
def validBuild (s : List Char) : Bool :=
  (pySplit '.' s).all validBuildIdent

/-- Modelled from the spec: the value type of the external semantic-version
library (`semver.Version`), which is not part of this repository.  Attributes
per the spec's data model: `major`/`minor`/`patch` non-negative integers plus
optional prerelease and build-metadata strings. -/
structure Version where
  major : Nat
  minor : Nat
  patch : Nat
  prerelease : Option (List Char)
  build : Option (List Char)
deriving DecidableEq, Repr

/-- Validity of an optional prerelease field. -/
def preOk : Option (List Char) → Bool
  | some p => validPre p
  | none => true

/-- Validity of an optional build-metadata field. -/
def buildOk : Option (List Char) → Bool
  | some b => validBuild b
  | none => true

/-- Parse the `major.minor.patch` core once prerelease and build have been
split off, and assemble the `Version`. -/
def parseCore (core : List Char) (pre build : Option (List Char)) :
    Except PyError Version :=
  match pySplit '.' core with
  | [ma, mi, pa] =>
    if validNumeral ma && validNumeral mi && validNumeral pa &&
        preOk pre && buildOk build then
      .ok ⟨parseNat ma, parseNat mi, parseNat pa, pre, build⟩
    else
      .error .formatError
  | _ => .error .formatError

/-- Split off the prerelease field (everything after the first `-`, which can
only occur after the all-digit core in a valid version). -/
def parsePre (rest : List Char) (build : Option (List Char)) :
    Except PyError Version :=
  match splitFirst '-' rest with
  | some (core, pre) => parseCore core (some pre) build
  | none => parseCore rest none build

/-- Modelled from the spec: `Version.parse` of the external semantic-version
library, i.e. the plain grammar `major.minor.patch[-prerelease][+build]` with
numeric components free of leading zeros and alphanumeric/hyphen identifier
fields; an invalid string raises `ValueError`. -/
def Version.parse (s : List Char) : Except PyError Version :=
  match splitFirst '+' s with
  | some (rest, build) => parsePre rest (some build)
  | none => parsePre s none

/-- Rendering of the optional prerelease field. -/
def preStr : Option (List Char) → List Char
  | some p => '-' :: p
  | none => []

/-- Rendering of the optional build-metadata field. -/
def buildStr : Option (List Char) → List Char
  | some b => '+' :: b
  | none => []

/-- The rendered `major.minor.patch` core. -/
def coreOf (major minor patch : Nat) : List Char :=
  renderNat major ++ ('.' :: (renderNat minor ++ ('.' :: renderNat patch)))

/-- Modelled from the spec: the external library's string rendering
`major.minor.patch[-prerelease][+build]`. -/
def Version.render (v : Version) : List Char :=
  coreOf v.major v.minor v.patch ++ preStr v.prerelease ++ buildStr v.build

/-- `MzVersion.__str__`: the `v`-prefixed rendering. -/
def MzVersion.str (v : Version) : List Char :=
  'v' :: Version.render v

/-- Model of Python's `version.replace("-dev", "")`: removes the occurrences
of the literal substring `-dev`, scanning left to right. -/
def removeDev : List Char → List Char
  | '-' :: 'd' :: 'e' :: 'v' :: rest => removeDev rest
  | c :: rest => c :: removeDev rest
  | [] => []

/-- The space-handling block of `MzVersion.parse_mz` (lines 51-55): if the
string contains a space it must split into exactly two pieces, the second a
parenthesized hash, which is discarded.  `version, git_hash = version.split(" ")`
raises `ValueError` unless the split has exactly two pieces, and `git_hash[0]`
raises `IndexError` when the second piece is empty. -/
def splitHash (version : List Char) : Except PyError (List Char) :=
  if ' ' ∈ version then
    match pySplit ' ' version with
    | [ver, git_hash] =>
      match git_hash with
      | [] => .error .indexError
      | g0 :: gtail =>
        if g0 = '(' ∧ (g0 :: gtail).getLast? = some ')' then .ok ver
        else .error .formatError
    | _ => .error .formatError
  else .ok version

/-- `MzVersion.parse_mz`: requires a leading `v` (indexing the empty string
raises `IndexError`), splits off an optional parenthesized hash, optionally
removes the `-dev` substring, and delegates to the semantic-version parser. -/
def parse_mz (version : List Char) (drop_dev_suffix : Bool) :
    Except PyError Version :=
  match version with
  | [] => .error .indexError
  | v0 :: rest =>
    if v0 = 'v' then
      match splitHash rest with
      | .error e => .error e
      | .ok ver => Version.parse (if drop_dev_suffix then removeDev ver else ver)
    else .error .formatError

/-- `MzVersion.create_mz`: formats `v{major}.{minor}.{patch}[-{prerelease}]`
and parses it through `parse_mz`. -/
def create_mz (major minor patch : Nat) (prerelease : Option (List Char)) :
    Except PyError Version :=
  parse_mz ('v' :: (coreOf major minor patch ++ preStr prerelease)) false

/-- `MzVersion.try_parse_mz`: converts a `ValueError` (of either kind) into
`none`; any other exception (`IndexError`) propagates. -/
def try_parse_mz (version : List Char) (drop_dev_suffix : Bool) :
    Except PyError (Option Version) :=
  match parse_mz version drop_dev_suffix with
  | .ok v => .ok (some v)
  | .error .formatError => .ok none
  | .error .notFoundError => .ok none
  | .error .indexError => .error .indexError

/-- `MzVersion.is_mz_version_string`: true iff `try_parse_mz` returns a value. -/
def is_mz_version_string (version : List Char) : Except PyError Bool :=
  match try_parse_mz version false with
  | .ok o => .ok o.isSome
  | .error e => .error e

/-- One entry of the `packages` list of the parsed `cargo metadata` output. -/
structure CargoPackage where
  name : List Char
  version : List Char
deriving DecidableEq, Repr

/-- `MzVersion.parse_cargo`, with the external tool's output supplied as
input: returns the plain semver parse of the first package named
`mz-environmentd`, and raises a `ValueError` (the spec's `NotFoundError`)
when there is none. -/
def parse_cargo (packages : List CargoPackage) : Except PyError Version :=
  match packages.find? (fun p => p.name == ("mz-environmentd".data : List Char)) with
  | some p => Version.parse p.version
  | none => .error .notFoundError

/-- The alphabet Python's `nonce` draws from. -/
def hexAlphabet : List Char := "0123456789abcdef".data

/-- `nonce`: the random choices of `random.choice` are supplied as the oracle
`pick`, one index into the sixteen-character alphabet per position. -/
def nonce (digits : Nat) (pick : Nat → Fin 16) : List Char :=
  (List.range digits).map fun i => hexAlphabet.get (Fin.cast (by decide) (pick i))

/-- `all_subclasses`: direct subclasses come from the oracle `sub` (Python's
`cls.__subclasses__()`); the recursion of the source is embedded with explicit
fuel, which suffices whenever it exceeds the height of `cls` in the (finite,
acyclic) subclass graph. -/
def all_subclasses {α : Type} (sub : α → List α) : Nat → α → List α
  | 0, _ => []
  | fuel + 1, cls =>
    let sc := sub cls
    sc ++ sc.flatMap (all_subclasses sub fuel)

/-- Characters that can appear in a validated prerelease or build field. -/
def fieldChar (c : Char) : Bool :=
  isIdentChar c || c == '.'

/-- The space-split of a version body yields a single well-formed
parenthesized hash segment. -/
def isWellFormedSplit (body : List Char) : Bool :=
  match pySplit ' ' body with
  | [_, g0 :: gtail] => decide (g0 = '(' ∧ (g0 :: gtail).getLast? = some ')')
  | _ => false

/-- The string `" (" + h + ")"`: a space followed by the parenthesized hash. -/
def hashSeg (h : List Char) : List Char :=
  ' ' :: ('(' :: (h ++ [')']))

/-- A tiny concrete subclass graph on `Fin 3` (0 has subclasses 1 and 2, and
1 has subclass 2), used to exercise `all_subclasses`. -/
def subDemo : Fin 3 → List (Fin 3) :=
  fun b => if b = 0 then [1, 2] else if b = 1 then [2] else []

/-! ### Lemmas about the splitting helpers -/

theorem pySplit_ne_nil (sep : Char) (s : List Char) : pySplit sep s ≠ [] := by
  cases s with
  | nil => simp [pySplit]
  | cons c rest =>
    simp only [pySplit]
    cases pySplit sep rest with
    | nil => simp
    | cons p ps =>
      split
      · simp
      · split <;> simp

theorem pySplit_eq_single (sep : Char) :
    ∀ (s : List Char), sep ∉ s → pySplit sep s = [s]
  | [], _ => rfl
  | c :: rest, h => by
    have hc : ¬ c = sep := fun hh => h (by simp [hh])
    have ih := pySplit_eq_single sep rest (fun hm => h (List.mem_cons_of_mem _ hm))
    simp [pySplit, ih, hc]

theorem pySplit_append (sep : Char) :
    ∀ (a t : List Char), sep ∉ a → pySplit sep (a ++ sep :: t) = a :: pySplit sep t
  | [], t, _ => by
    simp only [List.nil_append, pySplit]
    cases h : pySplit sep t with
    | nil => exact absurd h (pySplit_ne_nil sep t)
    | cons p ps => simp
  | c :: a, t, h => by
    have hc : ¬ c = sep := fun hh => h (by simp [hh])
    have ih := pySplit_append sep a t (fun hm => h (List.mem_cons_of_mem _ hm))
    simp [pySplit, ih, hc]

theorem mem_pySplit (sep : Char) :
    ∀ (s : List Char) (c : Char), c ∈ s → c = sep ∨ ∃ q ∈ pySplit sep s, c ∈ q
  | [], c, h => absurd h (List.not_mem_nil c)
  | x :: rest, c, h => by
    cases hps : pySplit sep rest with
    | nil => exact absurd hps (pySplit_ne_nil sep rest)
    | cons p ps =>
      rcases List.mem_cons.mp h with rfl | hmem
      · by_cases hx : c = sep
        · exact Or.inl hx
        · refine Or.inr ⟨c :: p, ?_, List.mem_cons_self _ _⟩
          simp [pySplit, hps, hx]
      · rcases mem_pySplit sep rest c hmem with hc | ⟨q, hq, hcq⟩
        · exact Or.inl hc
        · rw [hps] at hq
          by_cases hx : x = sep
          · refine Or.inr ⟨q, ?_, hcq⟩
            simp only [pySplit, hps, if_pos hx]
            exact List.mem_cons_of_mem _ hq
          · rcases List.mem_cons.mp hq with rfl | hq2
            · refine Or.inr ⟨x :: q, ?_, List.mem_cons_of_mem _ hcq⟩
              simp [pySplit, hps, hx]
            · refine Or.inr ⟨q, ?_, hcq⟩
              simp only [pySplit, hps, if_neg hx]
              exact List.mem_cons_of_mem _ hq2

theorem splitFirst_eq_none (sep : Char) :
    ∀ s : List Char, sep ∉ s → splitFirst sep s = none
  | [], _ => rfl
  | c :: rest, h => by
    have hc : ¬ c = sep := fun hh => h (by simp [hh])
    have ih := splitFirst_eq_none sep rest (fun hm => h (List.mem_cons_of_mem _ hm))
    simp [splitFirst, hc, ih]

theorem splitFirst_append (sep : Char) :
    ∀ (a t : List Char), sep ∉ a → splitFirst sep (a ++ sep :: t) = some (a, t)
  | [], t, _ => by simp [splitFirst]
  | c :: a, t, h => by
    have hc : ¬ c = sep := fun hh => h (by simp [hh])
    have ih := splitFirst_append sep a t (fun hm => h (List.mem_cons_of_mem _ hm))
    simp [splitFirst, hc, ih]

/-! ### Lemmas about decimal rendering -/

theorem renderNatAux_irrel :
    ∀ (f g n : Nat), n < f → n < g → renderNatAux f n = renderNatAux g n
  | 0, _, _, h, _ => absurd h (by omega)
  | _ + 1, 0, _, _, h => absurd h (by omega)
  | f + 1, g + 1, n, h₁, h₂ => by
    simp only [renderNatAux]
    split
    · rfl
    · rename_i h10
      have hlt : n / 10 < n := Nat.div_lt_self (by omega) (by omega)
      rw [renderNatAux_irrel f g (n / 10) (by omega) (by omega)]

theorem renderNat_eq (n : Nat) : renderNat n =
    if n < 10 then [digitChar n] else renderNat (n / 10) ++ [digitChar (n % 10)] := by
  show renderNatAux (n + 1) n = _
  simp only [renderNatAux]
  split
  · rfl
  · rename_i h10
    have hlt : n / 10 < n := Nat.div_lt_self (by omega) (by omega)
    rw [renderNatAux_irrel n (n / 10 + 1) (n / 10) (by omega) (by omega)]
    rfl

theorem digitChar_isDigit : ∀ d : Nat, d < 10 → (digitChar d).isDigit = true := by decide

theorem digitChar_toNat : ∀ d : Nat, d < 10 → (digitChar d).toNat = 48 + d := by decide

theorem digitChar_ne_zero : ∀ d : Nat, d < 10 → 0 < d → digitChar d ≠ '0' := by decide

theorem parseNat_append (a : List Char) (c : Char) :
    parseNat (a ++ [c]) = 10 * parseNat a + (c.toNat - '0'.toNat) := by
  simp [parseNat, List.foldl_append]

theorem renderNat_digits (n : Nat) : ∀ c ∈ renderNat n, c.isDigit = true := by
  induction n using Nat.strong_induction_on with
  | _ n ih =>
    rw [renderNat_eq]
    split
    · rename_i h10
      intro c hc
      rcases List.mem_singleton.mp hc with rfl
      exact digitChar_isDigit n h10
    · rename_i h10
      intro c hc
      rcases List.mem_append.mp hc with hc | hc
      · exact ih (n / 10) (Nat.div_lt_self (by omega) (by omega)) c hc
      · rcases List.mem_singleton.mp hc with rfl
        exact digitChar_isDigit (n % 10) (Nat.mod_lt _ (by omega))

theorem renderNat_ne_nil (n : Nat) : renderNat n ≠ [] := by
  rw [renderNat_eq]; split <;> simp

theorem renderNat_head : ∀ n : Nat, 0 < n → (renderNat n).head? ≠ some '0' := by
  intro n
  induction n using Nat.strong_induction_on with
  | _ n ih =>
    intro hpos
    rw [renderNat_eq]
    split
    · rename_i h10
      simp only [List.head?_cons]
      intro hcontra
      exact digitChar_ne_zero n h10 hpos (Option.some.inj hcontra)
    · rename_i h10
      cases hr : renderNat (n / 10) with
      | nil => exact absurd hr (renderNat_ne_nil _)
      | cons x xs =>
        have hx := ih (n / 10) (Nat.div_lt_self (by omega) (by omega))
          (Nat.div_pos (by omega) (by omega))
        rw [hr] at hx
        simpa using hx

theorem validNumeral_renderNat (n : Nat) : validNumeral (renderNat n) = true := by
  have hne := renderNat_ne_nil n
  have hdig := renderNat_digits n
  rcases Nat.eq_zero_or_pos n with rfl | hpos
  · rw [show renderNat 0 = ['0'] from by rw [renderNat_eq]; rfl]
    decide
  · have hh := renderNat_head n hpos
    unfold validNumeral
    cases hr : renderNat n with
    | nil => exact absurd hr hne
    | cons x xs =>
      rw [hr] at hdig hh
      simp only [List.isEmpty_cons, Bool.not_false, Bool.true_and, Bool.and_eq_true,
        Bool.or_eq_true, List.all_eq_true]
      exact ⟨fun c hc => hdig c hc, Or.inl (by simpa [bne_iff_ne] using hh)⟩

theorem parseNat_renderNat : ∀ n : Nat, parseNat (renderNat n) = n := by
  intro n
  induction n using Nat.strong_induction_on with
  | _ n ih =>
    rw [renderNat_eq]
    split
    · rename_i h10
      have hd := digitChar_toNat n h10
      simp [parseNat, hd]
    · rename_i h10
      rw [parseNat_append, ih (n / 10) (Nat.div_lt_self (by omega) (by omega))]
      have hd := digitChar_toNat (n % 10) (Nat.mod_lt _ (by omega))
      rw [hd]
      show 10 * (n / 10) + (48 + n % 10 - '0'.toNat) = n
      have : '0'.toNat = 48 := rfl
      omega

/-! ### Character classification for rendered versions -/

theorem validPre_chars (p : List Char) (h : validPre p = true) :
    ∀ c ∈ p, fieldChar c = true := by
  intro c hc
  rcases mem_pySplit '.' p c hc with rfl | ⟨q, hq, hcq⟩
  · simp [fieldChar]
  · unfold validPre at h
    rw [List.all_eq_true] at h
    have hvq := h q hq
    unfold validPreIdent validBuildIdent at hvq
    simp only [Bool.and_eq_true, List.all_eq_true] at hvq
    have := hvq.1.2 c hcq
    simp [fieldChar, this]

theorem validBuild_chars (p : List Char) (h : validBuild p = true) :
    ∀ c ∈ p, fieldChar c = true := by
  intro c hc
  rcases mem_pySplit '.' p c hc with rfl | ⟨q, hq, hcq⟩
  · simp [fieldChar]
  · unfold validBuild at h
    rw [List.all_eq_true] at h
    have hvq := h q hq
    unfold validBuildIdent at hvq
    simp only [Bool.and_eq_true, List.all_eq_true] at hvq
    have := hvq.2 c hcq
    simp [fieldChar, this]

theorem isDigit_spec (c : Char) (h : c.isDigit = true) :
    c ≠ '.' ∧ c ≠ '+' ∧ c ≠ '-' ∧ c ≠ ' ' := by
  refine ⟨?_, ?_, ?_, ?_⟩ <;> rintro rfl <;> exact absurd h (by decide)

theorem renderNat_no_dot (n : Nat) : '.' ∉ renderNat n :=
  fun hm => absurd (renderNat_digits n '.' hm) (by decide)

theorem mem_coreOf (M m p : Nat) (c : Char) (hc : c ∈ coreOf M m p) :
    c.isDigit = true ∨ c = '.' := by
  unfold coreOf at hc
  rcases List.mem_append.mp hc with h | h
  · exact Or.inl (renderNat_digits M c h)
  · rcases List.mem_cons.mp h with rfl | h
    · exact Or.inr rfl
    · rcases List.mem_append.mp h with h | h
      · exact Or.inl (renderNat_digits m c h)
      · rcases List.mem_cons.mp h with rfl | h
        · exact Or.inr rfl
        · exact Or.inl (renderNat_digits p c h)

theorem coreOf_no_char (M m p : Nat) (c : Char) (h : c ∈ coreOf M m p) :
    c ≠ '-' ∧ c ≠ '+' ∧ c ≠ ' ' := by
  rcases mem_coreOf M m p c h with hd | rfl
  · have := isDigit_spec c hd
    exact ⟨this.2.2.1, this.2.1, this.2.2.2⟩
  · exact ⟨by decide, by decide, by decide⟩

theorem mem_preStr (pre : Option (List Char)) (hp : preOk pre = true) (c : Char)
    (hc : c ∈ preStr pre) : c = '-' ∨ fieldChar c = true := by
  cases pre with
  | none => simp [preStr] at hc
  | some p =>
    rcases List.mem_cons.mp hc with rfl | hc
    · exact Or.inl rfl
    · exact Or.inr (validPre_chars p hp c hc)

theorem mem_buildStr (build : Option (List Char)) (hb : buildOk build = true) (c : Char)
    (hc : c ∈ buildStr build) : c = '+' ∨ fieldChar c = true := by
  cases build with
  | none => simp [buildStr] at hc
  | some b =>
    rcases List.mem_cons.mp hc with rfl | hc
    · exact Or.inl rfl
    · exact Or.inr (validBuild_chars b hb c hc)

theorem no_plus_corePre (M m p : Nat) (pre : Option (List Char))
    (hp : preOk pre = true) : '+' ∉ coreOf M m p ++ preStr pre := by
  intro hmem
  rcases List.mem_append.mp hmem with h | h
  · exact (coreOf_no_char M m p '+' h).2.1 rfl
  · rcases mem_preStr pre hp '+' h with h | h
    · exact absurd h (by decide)
    · exact absurd h (by decide)

theorem no_dash_core (M m p : Nat) : '-' ∉ coreOf M m p :=
  fun h => (coreOf_no_char M m p '-' h).1 rfl

theorem render_no_space (v : Version) (hp : preOk v.prerelease = true)
    (hb : buildOk v.build = true) : ' ' ∉ Version.render v := by
  intro hmem
  unfold Version.render at hmem
  rcases List.mem_append.mp hmem with h | h
  · rcases List.mem_append.mp h with h | h
    · exact (coreOf_no_char _ _ _ ' ' h).2.2 rfl
    · rcases mem_preStr _ hp ' ' h with h | h
      · exact absurd h (by decide)
      · exact absurd h (by decide)
  · rcases mem_buildStr _ hb ' ' h with h | h
    · exact absurd h (by decide)
    · exact absurd h (by decide)

/-! ### The render/parse round trip -/

theorem parse_step1 (X : List Char) (build : Option (List Char)) (h : '+' ∉ X) :
    Version.parse (X ++ buildStr build) = parsePre X build := by
  cases build with
  | none =>
    simp only [buildStr, List.append_nil]
    unfold Version.parse
    rw [splitFirst_eq_none '+' X h]
  | some b =>
    unfold Version.parse
    rw [show X ++ buildStr (some b) = X ++ '+' :: b from rfl,
      splitFirst_append '+' X b h]

theorem parse_step2 (core : List Char) (pre build : Option (List Char))
    (h : '-' ∉ core) : parsePre (core ++ preStr pre) build = parseCore core pre build := by
  cases pre with
  | none =>
    simp only [preStr, List.append_nil]
    unfold parsePre
    rw [splitFirst_eq_none '-' core h]
  | some p =>
    unfold parsePre
    rw [show core ++ preStr (some p) = core ++ '-' :: p from rfl,
      splitFirst_append '-' core p h]

theorem parse_step3 (M m p : Nat) (pre build : Option (List Char))
    (hp : preOk pre = true) (hb : buildOk build = true) :
    parseCore (coreOf M m p) pre build = .ok ⟨M, m, p, pre, build⟩ := by
  unfold parseCore coreOf
  rw [pySplit_append '.' (renderNat M) _ (renderNat_no_dot M),
      pySplit_append '.' (renderNat m) _ (renderNat_no_dot m),
      pySplit_eq_single '.' (renderNat p) (renderNat_no_dot p)]
  simp [validNumeral_renderNat, hp, hb, parseNat_renderNat]

theorem parse_render (v : Version) (hp : preOk v.prerelease = true)
    (hb : buildOk v.build = true) :
    Version.parse (Version.render v) = .ok v := by
  obtain ⟨M, m, p, pre, build⟩ := v
  show Version.parse (coreOf M m p ++ preStr pre ++ buildStr build) = _
  rw [parse_step1 _ _ (no_plus_corePre M m p pre hp),
      parse_step2 _ _ _ (no_dash_core M m p),
      parse_step3 M m p pre build hp hb]

theorem splitHash_no_space (ver : List Char) (h : ' ' ∉ ver) :
    splitHash ver = .ok ver := by
  unfold splitHash
  rw [if_neg h]

theorem parse_mz_str (v : Version) (hp : preOk v.prerelease = true)
    (hb : buildOk v.build = true) :
    parse_mz (MzVersion.str v) false = .ok v := by
  have hns : ' ' ∉ Version.render v := render_no_space v hp hb
  show parse_mz ('v' :: Version.render v) false = .ok v
  simp only [parse_mz, if_pos rfl, splitHash_no_space _ hns]
  simpa using parse_render v hp hb

/-! ### Inversion: a successful parse yields validated fields -/

theorem parseCore_ok (core : List Char) (pre build : Option (List Char)) (v : Version)
    (h : parseCore core pre build = .ok v) :
    v.prerelease = pre ∧ v.build = build ∧ preOk pre = true ∧ buildOk build = true := by
  unfold parseCore at h
  split at h
  · split at h
    · rename_i hcond
      simp only [Bool.and_eq_true] at hcond
      cases h
      exact ⟨rfl, rfl, hcond.1.2, hcond.2⟩
    · exact Except.noConfusion h
  · exact Except.noConfusion h

theorem parsePre_ok (rest : List Char) (build : Option (List Char)) (v : Version)
    (h : parsePre rest build = .ok v) :
    preOk v.prerelease = true ∧ buildOk v.build = true := by
  unfold parsePre at h
  split at h <;>
    · obtain ⟨h1, h2, h3, h4⟩ := parseCore_ok _ _ _ _ h
      rw [h1, h2]
      exact ⟨h3, h4⟩

theorem Version.parse_ok (s : List Char) (v : Version)
    (h : Version.parse s = .ok v) :
    preOk v.prerelease = true ∧ buildOk v.build = true := by
  unfold Version.parse at h
  split at h <;> exact parsePre_ok _ _ _ h

theorem parse_mz_ok (s : List Char) (b : Bool) (v : Version)
    (h : parse_mz s b = .ok v) :
    preOk v.prerelease = true ∧ buildOk v.build = true := by
  cases s with
  | nil => exact Except.noConfusion h
  | cons c rest =>
    simp only [parse_mz] at h
    split at h
    · split at h
      · exact Except.noConfusion h
      · exact Version.parse_ok _ _ h
    · exact Except.noConfusion h

theorem parse_mz_roundtrip (s : List Char) (b : Bool) (v : Version)
    (h : parse_mz s b = .ok v) : parse_mz (MzVersion.str v) false = .ok v :=
  parse_mz_str v (parse_mz_ok s b v h).1 (parse_mz_ok s b v h).2

/-! ### Claims -/

/-- C1: for all non-negative `major`, `minor`, `patch`,
`parse_mz (str (create_mz major minor patch))` equals
`create_mz major minor patch`; more generally every `Version` produced by
`create_mz` or `parse_mz` is recovered by parsing its own rendering. -/
theorem c1_roundtrip :
    (∀ major minor patch : Nat, ∃ v,
        create_mz major minor patch none = .ok v ∧
        parse_mz (MzVersion.str v) false = create_mz major minor patch none) ∧
    (∀ (s : List Char) (b : Bool) (v : Version),
        parse_mz s b = .ok v → parse_mz (MzVersion.str v) false = .ok v) := by
  constructor
  · intro M m p
    have key : parse_mz (MzVersion.str ⟨M, m, p, none, none⟩) false =
        .ok ⟨M, m, p, none, none⟩ := parse_mz_str _ rfl rfl
    have harg : create_mz M m p none =
        parse_mz (MzVersion.str ⟨M, m, p, none, none⟩) false := by
      unfold create_mz MzVersion.str Version.render
      simp [preStr, buildStr]
    exact ⟨⟨M, m, p, none, none⟩, harg.trans key, harg.symm⟩
  · exact parse_mz_roundtrip

/-- Witness for C1: the round trip applied at `"v1.2.3-rc1"`. -/
theorem c1_roundtrip_witness :
    parse_mz "v1.2.3-rc1".data false = .ok ⟨1, 2, 3, some "rc1".data, none⟩ ∧
    parse_mz (MzVersion.str ⟨1, 2, 3, some "rc1".data, none⟩) false =
      .ok ⟨1, 2, 3, some "rc1".data, none⟩ :=
  ⟨by decide, c1_roundtrip.2 "v1.2.3-rc1".data false ⟨1, 2, 3, some "rc1".data, none⟩
    (by decide)⟩

/-- C2, counterexample: on the empty string (which does not begin with `v`)
`parse_mz` raises `IndexError` (from `version[0]`), not the `ValueError` that
the spec calls `FormatError`. -/
theorem c2_counterexample :
    parse_mz [] false = .error .indexError ∧
    parse_mz [] false ≠ .error .formatError := by decide

/-- C2, amended: every nonempty string that does not begin with `v` fails
with `FormatError`; the empty string instead fails with `IndexError`. -/
theorem c2_no_v_prefix :
    (∀ (c : Char) (rest : List Char) (b : Bool), c ≠ 'v' →
        parse_mz (c :: rest) b = .error .formatError) ∧
    (∀ b : Bool, parse_mz [] b = .error .indexError) := by
  constructor
  · intro c rest b hc
    simp [parse_mz, hc]
  · intro b
    rfl

/-- Witness for C2: `parse_mz "1.2.3"` fails with `FormatError`. -/
theorem c2_witness : parse_mz "1.2.3".data false = .error .formatError :=
  c2_no_v_prefix.1 '1' ".2.3".data false (by decide)

/-- C3, counterexample: `"v1.2.3 "` contains a space that does not separate
the body from a well-formed parenthesized hash, yet `parse_mz` raises
`IndexError` (from `git_hash[0]` on the empty segment), not `FormatError`. -/
theorem c3_counterexample :
    ' ' ∈ ("v1.2.3 ".data : List Char) ∧
    isWellFormedSplit "1.2.3 ".data = false ∧
    parse_mz "v1.2.3 ".data false = .error .indexError ∧
    parse_mz "v1.2.3 ".data false ≠ .error .formatError := by decide

/-- Unfolding of `parse_mz` on a string with a leading `v`. -/
theorem parse_mz_v (rest : List Char) (b : Bool) :
    parse_mz ('v' :: rest) b =
      match splitHash rest with
      | .error e => .error e
      | .ok ver => Version.parse (if b then removeDev ver else ver) := rfl

/-- `splitHash` on a space-containing string without a well-formed hash
segment: `FormatError`, or `IndexError` when the second piece is empty. -/
theorem splitHash_bad (ver : List Char) (hsp : ' ' ∈ ver)
    (hwf : isWellFormedSplit ver = false) :
    splitHash ver = .error .formatError ∨
    (∃ v1, pySplit ' ' ver = [v1, []] ∧ splitHash ver = .error .indexError) := by
  unfold splitHash
  rw [if_pos hsp]
  unfold isWellFormedSplit at hwf
  cases hps : pySplit ' ' ver with
  | nil => left; rfl
  | cons p1 tail =>
    rw [hps] at hwf
    cases tail with
    | nil => left; rfl
    | cons p2 tail2 =>
      cases tail2 with
      | cons q qs => left; rfl
      | nil =>
        cases p2 with
        | nil => exact Or.inr ⟨p1, rfl, rfl⟩
        | cons g0 gtail =>
          left
          exact if_neg (of_decide_eq_false hwf)

/-- C3, amended: a string containing a space that does not separate the body
from a single well-formed parenthesized hash fails with `FormatError`, except
when the body splits into exactly two pieces the second of which is empty
(the string ends in its lone space), in which case `IndexError` is raised. -/
theorem c3_amended : ∀ (s : List Char) (b : Bool), ' ' ∈ s →
    (∀ body, s = 'v' :: body → isWellFormedSplit body = false) →
    parse_mz s b = .error .formatError ∨
    (∃ body ver, s = 'v' :: body ∧ pySplit ' ' body = [ver, []] ∧
      parse_mz s b = .error .indexError) := by
  intro s b hsp hwf
  cases s with
  | nil => exact absurd hsp (List.not_mem_nil ' ')
  | cons c rest =>
    by_cases hc : c = 'v'
    case neg =>
      left
      simp [parse_mz, hc]
    case pos =>
      subst hc
      have hsr : ' ' ∈ rest := by
        rcases List.mem_cons.mp hsp with h | h
        · exact absurd h.symm (by decide)
        · exact h
      rcases splitHash_bad rest hsr (hwf rest rfl) with h | ⟨v1, hps, h⟩
      · left
        rw [parse_mz_v, h]
      · right
        refine ⟨rest, v1, rfl, hps, ?_⟩
        rw [parse_mz_v, h]

/-- Witness for C3 (amended): `parse_mz "v1.2.3 abc123"` (hash without
parentheses) fails with `FormatError`. -/
theorem c3_witness : parse_mz "v1.2.3 abc123".data false = .error .formatError := by
  have happ : ("v1.2.3 abc123".data : List Char) = 'v' :: "1.2.3 abc123".data := rfl
  rcases c3_amended "v1.2.3 abc123".data false (by decide)
      (fun body h => by
        have hb : "1.2.3 abc123".data = body := by
          rw [happ] at h
          exact (List.cons.inj h).2
        rw [← hb]
        decide) with h | h
  · exact h
  · rcases h with ⟨body, ver, hb, hsplit, herr⟩
    have : (.error .formatError : Except PyError Version) = .error .indexError :=
      (show parse_mz "v1.2.3 abc123".data false = .error .formatError by decide).symm.trans
        herr
    exact absurd this (by decide)

/-- C4: `try_parse_mz` returns the parsed version whenever `parse_mz`
succeeds, and returns `none` (rather than propagating) whenever `parse_mz`
fails with `FormatError`. -/
theorem c4_try_parse : ∀ (s : List Char) (d : Bool),
    (∀ v : Version, parse_mz s d = .ok v → try_parse_mz s d = .ok (some v)) ∧
    (parse_mz s d = .error .formatError → try_parse_mz s d = .ok none) := by
  intro s d
  constructor
  · intro v h
    unfold try_parse_mz
    rw [h]
  · intro h
    unfold try_parse_mz
    rw [h]

/-- Witness for C4: `try_parse_mz "not-a-version"` returns `none`. -/
theorem c4_witness : try_parse_mz "not-a-version".data false = .ok none :=
  (c4_try_parse "not-a-version".data false).2 (by decide)

/-- `splitHash` discards a well-formed space-free parenthesized hash. -/
theorem splitHash_hash (ver hsh : List Char) (hv : ' ' ∉ ver) (hh : ' ' ∉ hsh) :
    splitHash (ver ++ hashSeg hsh) = .ok ver := by
  have hg : ' ' ∉ ('(' :: (hsh ++ [')']) : List Char) := by
    intro hm
    rcases List.mem_cons.mp hm with h | h
    · exact absurd h (by decide)
    · rcases List.mem_append.mp h with h | h
      · exact hh h
      · exact absurd (List.mem_singleton.mp h) (by decide)
  have hmem : ' ' ∈ ver ++ hashSeg hsh :=
    List.mem_append.mpr (Or.inr (List.mem_cons_self _ _))
  unfold splitHash
  rw [if_pos hmem]
  rw [show ver ++ hashSeg hsh = ver ++ ' ' :: ('(' :: (hsh ++ [')'])) from rfl]
  rw [pySplit_append ' ' ver _ hv, pySplit_eq_single ' ' _ hg]
  exact if_pos ⟨rfl, List.getLast?_concat ('(' :: hsh)⟩

/-- C5: appending a well-formed parenthesized hash segment to a space-free
version string that parses successfully does not change the parse result:
the hash is discarded. -/
theorem c5_hash_discarded : ∀ (s hsh : List Char) (v : Version),
    ' ' ∉ s → ' ' ∉ hsh → parse_mz s false = .ok v →
    parse_mz (s ++ hashSeg hsh) false = .ok v := by
  intro s hsh v hs hh hv
  cases s with
  | nil => exact Except.noConfusion hv
  | cons c rest =>
    have hc : c = 'v' := by
      by_contra hcne
      simp [parse_mz, hcne] at hv
    subst hc
    have hrest : ' ' ∉ rest := fun hm => hs (List.mem_cons_of_mem _ hm)
    have hbody : Version.parse rest = .ok v := by
      rw [parse_mz_v, splitHash_no_space rest hrest] at hv
      exact hv
    rw [show ('v' :: rest) ++ hashSeg hsh = 'v' :: (rest ++ hashSeg hsh) from rfl,
      parse_mz_v, splitHash_hash rest hsh hrest hh]
    exact hbody

/-- Witness for C5: `parse_mz "v1.2.3 (abc123)"` succeeds and equals
`create_mz 1 2 3`. -/
theorem c5_witness :
    parse_mz "v1.2.3 (abc123)".data false = .ok ⟨1, 2, 3, none, none⟩ ∧
    create_mz 1 2 3 none = .ok ⟨1, 2, 3, none, none⟩ := by
  constructor
  · exact c5_hash_discarded "v1.2.3".data "abc123".data ⟨1, 2, 3, none, none⟩
      (by decide) (by decide) (by decide)
  · decide

/-- C6: with `drop_dev_suffix` the literal substring `-dev` is removed from
the whole version body after the hash (if any) has been split off — wherever
it occurs, not only as a prerelease tag; in particular
`parse_mz "v1.2.3-dev" true = create_mz 1 2 3`. -/
theorem c6_drop_dev :
    (∀ body : List Char, ' ' ∉ body →
        parse_mz ('v' :: body) true = Version.parse (removeDev body)) ∧
    (∀ ver hsh : List Char, ' ' ∉ ver → ' ' ∉ hsh →
        parse_mz ('v' :: (ver ++ hashSeg hsh)) true = Version.parse (removeDev ver)) ∧
    (∀ t : List Char, removeDev ('-' :: 'd' :: 'e' :: 'v' :: t) = removeDev t) ∧
    removeDev "1-dev.2.3-dev".data = "1.2.3".data ∧
    parse_mz "v1-dev.2.3-dev".data true = .ok ⟨1, 2, 3, none, none⟩ ∧
    parse_mz "v1.2.3-dev".data true = create_mz 1 2 3 none := by
  refine ⟨?_, ?_, fun t => rfl, by decide, by decide, by decide⟩
  · intro body hb
    rw [parse_mz_v, splitHash_no_space body hb]
    rfl
  · intro ver hsh hv hh
    rw [parse_mz_v, splitHash_hash ver hsh hv hh]
    rfl

/-- Witness for C6: the body rule applied at `"1.2.3-dev"`. -/
theorem c6_witness :
    parse_mz "v1.2.3-dev".data true = Version.parse (removeDev "1.2.3-dev".data) :=
  c6_drop_dev.1 "1.2.3-dev".data (by decide)

/-- C7: `is_mz_version_string` returns true exactly when `try_parse_mz`
returns a version; in particular it accepts `"v0.45.0-dev (f01773cb1)"`. -/
theorem c7_is_version_string :
    (∀ s : List Char, is_mz_version_string s = .ok true ↔
        ∃ v, try_parse_mz s false = .ok (some v)) ∧
    is_mz_version_string "v0.45.0-dev (f01773cb1)".data = .ok true := by
  constructor
  · intro s
    unfold is_mz_version_string
    cases htp : try_parse_mz s false with
    | error e => simp
    | ok o => cases o with
      | none => simp
      | some v => simp
  · decide

/-- Witness for C7: the equivalence applied at `"v1.2.3"`. -/
theorem c7_witness : ∃ v, try_parse_mz "v1.2.3".data false = .ok (some v) :=
  (c7_is_version_string.1 "v1.2.3".data).mp (by decide)

/-- `List.find?` returns the first element satisfying the predicate. -/
theorem find?_first {α : Type} (pred : α → Bool) :
    ∀ (ps₁ : List α) (p : α) (ps₂ : List α),
      (∀ q ∈ ps₁, pred q = false) → pred p = true →
      List.find? pred (ps₁ ++ p :: ps₂) = some p
  | [], p, ps₂, _, hp => by
    rw [List.nil_append, List.find?_cons_of_pos _ hp]
  | q :: ps₁, p, ps₂, hmiss, hp => by
    rw [List.cons_append,
      List.find?_cons_of_neg _ (by simp [hmiss q (List.mem_cons_self _ _)])]
    exact find?_first pred ps₁ p ps₂
      (fun r hr => hmiss r (List.mem_cons_of_mem _ hr)) hp

/-- C8: with the package-metadata output as input, `parse_cargo` returns the
plain semver parse of the (first) entry named `mz-environmentd`, and fails
with `NotFoundError` when no entry has that name. -/
theorem c8_parse_cargo : ∀ packages : List CargoPackage,
    (∀ (ps₁ : List CargoPackage) (p : CargoPackage) (ps₂ : List CargoPackage),
        packages = ps₁ ++ p :: ps₂ →
        (∀ q ∈ ps₁, q.name ≠ "mz-environmentd".data) →
        p.name = "mz-environmentd".data →
        parse_cargo packages = Version.parse p.version) ∧
    ((∀ q ∈ packages, q.name ≠ "mz-environmentd".data) →
        parse_cargo packages = .error .notFoundError) := by
  intro packages
  constructor
  · intro ps₁ p ps₂ hdecomp hmiss hname
    subst hdecomp
    unfold parse_cargo
    rw [find?_first _ ps₁ p ps₂ (fun q hq => by simp [hmiss q hq]) (by simp [hname])]
  · intro hmiss
    unfold parse_cargo
    rw [List.find?_eq_none.mpr (fun q hq => by simp [hmiss q hq])]

/-- Witness for C8 on a two-entry package list. -/
theorem c8_witness :
    parse_cargo [⟨"foo".data, "1.0.0".data⟩, ⟨"mz-environmentd".data, "0.45.0".data⟩] =
      Version.parse "0.45.0".data ∧
    parse_cargo [⟨"foo".data, "1.0.0".data⟩] = .error .notFoundError := by
  constructor
  · exact (c8_parse_cargo _).1 [⟨"foo".data, "1.0.0".data⟩]
      ⟨"mz-environmentd".data, "0.45.0".data⟩ [] rfl (by decide) rfl
  · exact (c8_parse_cargo _).2 (by decide)

/-- C9: `nonce digits` returns a string of exactly `digits` characters, each
drawn from the sixteen lowercase hexadecimal characters. -/
theorem c9_nonce : ∀ (digits : Nat) (pick : Nat → Fin 16),
    (nonce digits pick).length = digits ∧
    ∀ c ∈ nonce digits pick, c ∈ hexAlphabet := by
  intro digits pick
  constructor
  · simp [nonce]
  · intro c hc
    unfold nonce at hc
    rcases List.mem_map.mp hc with ⟨i, hi, rfl⟩
    exact List.get_mem _ _ _

/-- Witness for C9 at four digits with a constant oracle. -/
theorem c9_witness : (nonce 4 fun _ => 0).length = 4 ∧ '0' ∈ hexAlphabet :=
  ⟨(c9_nonce 4 (fun _ => 0)).1, (c9_nonce 4 (fun _ => 0)).2 '0' (by decide)⟩

/-- A transitive chain of subclass edges strictly decreases the measure. -/
theorem transGen_measure {α : Type} (sub : α → List α) (m : α → Nat)
    (hm : ∀ a b, a ∈ sub b → m a < m b) :
    ∀ x y, Relation.TransGen (fun a b : α => a ∈ sub b) x y → m x < m y := by
  intro x y h
  induction h with
  | single h => exact hm _ _ h
  | tail h1 h2 ih => exact lt_trans ih (hm _ _ h2)

/-- Everything `all_subclasses` returns is a strict transitive subclass. -/
theorem mem_all_subclasses {α : Type} (sub : α → List α) :
    ∀ (fuel : Nat) (cls x : α), x ∈ all_subclasses sub fuel cls →
      Relation.TransGen (fun a b : α => a ∈ sub b) x cls
  | 0, cls, x, h => absurd h (List.not_mem_nil x)
  | fuel + 1, cls, x, h => by
    unfold all_subclasses at h
    rcases List.mem_append.mp h with h | h
    · exact Relation.TransGen.single h
    · rcases List.mem_flatMap.mp h with ⟨c, hc, hx⟩
      exact Relation.TransGen.tail (mem_all_subclasses sub fuel c x hx) hc

/-- With enough fuel, every strict transitive subclass is returned. -/
theorem transGen_mem_all_subclasses {α : Type} (sub : α → List α) (m : α → Nat)
    (hm : ∀ a b, a ∈ sub b → m a < m b) :
    ∀ (fuel : Nat) (cls x : α), m cls ≤ fuel →
      Relation.TransGen (fun a b : α => a ∈ sub b) x cls →
      x ∈ all_subclasses sub fuel cls
  | 0, cls, x, hfuel, h => by
    exfalso
    cases h with
    | single h1 => exact absurd (hm _ _ h1) (by omega)
    | tail h1 h2 => exact absurd (hm _ _ h2) (by omega)
  | fuel + 1, cls, x, hfuel, h => by
    cases h with
    | single h1 =>
      unfold all_subclasses
      exact List.mem_append.mpr (Or.inl h1)
    | tail h1 h2 =>
      unfold all_subclasses
      refine List.mem_append.mpr (Or.inr (List.mem_flatMap.mpr ⟨_, h2, ?_⟩))
      exact transGen_mem_all_subclasses sub m hm fuel _ x
        (by have := hm _ _ h2; omega) h1

/-- C10: for a subclass relation admitting a strictly decreasing measure (a
finite acyclic graph), `all_subclasses` returns exactly the strict transitive
subclasses of `cls`, never `cls` itself. -/
theorem c10_all_subclasses : ∀ (α : Type) (sub : α → List α) (m : α → Nat),
    (∀ a b, a ∈ sub b → m a < m b) →
    ∀ (cls : α) (fuel : Nat), m cls ≤ fuel →
      (∀ x, x ∈ all_subclasses sub fuel cls ↔
        Relation.TransGen (fun a b : α => a ∈ sub b) x cls) ∧
      cls ∉ all_subclasses sub fuel cls := by
  intro α sub m hm cls fuel hfuel
  constructor
  · intro x
    exact ⟨mem_all_subclasses sub fuel cls x,
      transGen_mem_all_subclasses sub m hm fuel cls x hfuel⟩
  · intro hmem
    have := transGen_measure sub m hm cls cls (mem_all_subclasses sub fuel cls cls hmem)
    omega

/-- Witness for C10 on the demo graph. -/
theorem c10_witness :
    (0 : Fin 3) ∉ all_subclasses subDemo 2 0 ∧
    (1 : Fin 3) ∈ all_subclasses subDemo 2 0 :=
  ⟨(c10_all_subclasses (Fin 3) subDemo (fun x => 2 - x.val) (by decide) 0 2
      (by decide)).2,
   ((c10_all_subclasses (Fin 3) subDemo (fun x => 2 - x.val) (by decide) 0 2
      (by decide)).1 1).mpr (Relation.TransGen.single (by decide))⟩

end Mz
